import Mathlib

/-
Verification of the leader-side consensus replication queue
(`src/kudu/consensus/consensus_queue.cc`, class `PeerMessageQueue`).

The queue, its metrics, `TrackPeer`, `UntrackPeer`, `AppendOperation`,
`RequestForPeer`, `ResponseFromPeer`, `GetOperationStatus`,
`TrimBufferForMessage` and `CheckHardLimitsNotViolated` are translated
directly from the source.  Collaborators whose implementation is not part
of the provided sources (the `MemTracker` hierarchy, the
`OperationStatusTracker` ack bookkeeping, protobuf byte-size estimation,
`log::OpIdCompare`) are modelled from the specification and carry a
`Modelled from the spec:` doc comment.

Machine integers (`int64_t` consumptions, gauges) are modelled as `Int`;
non-negative byte sizes as `Nat`.  A fatal `CHECK` failure
(`InsertOrDie` on a duplicate key, `FindOrDie` on a missing key) is
modelled as `none` of an `Option` result.  The ordered `std::map`
message buffer is modelled as an association list kept in ascending
`OpId` order.
-/

namespace KuduQueue

/-- Modelled from the spec: `OpId` is an ordered pair `(term, index)`
of non-negative integers (the protobuf definition is not part of the
provided sources). -/
structure OpId where
  term : Nat
  index : Nat
deriving DecidableEq, Repr

/-- Modelled from the spec: the total order on `OpId` compares `term`
first, then `index` (the source's `log::OpIdCompare` is not part of the
provided sources). -/
def opIdLt (a b : OpId) : Prop :=
  a.term < b.term ∨ (a.term = b.term ∧ a.index < b.index)

instance (a b : OpId) : Decidable (opIdLt a b) := by
  unfold opIdLt
  infer_instance

/-- Non-strict version of the `OpId` order. -/
def opIdLe (a b : OpId) : Prop :=
  opIdLt a b ∨ a = b

instance (a b : OpId) : Decidable (opIdLe a b) := by
  unfold opIdLe
  infer_instance

/-- Modelled from the spec: `std::min` of two `OpId`s by the `OpId`
order, as used for the lowest watermark in `ResponseFromPeer`. -/
def minOpId (a b : OpId) : OpId :=
  if opIdLt b a then b else a

/-- The two operation kinds admitted by the queue: the source checks
`operation->has_replicate()` / `operation->has_commit()`. -/
inductive OpKind where
  | replicate
  | commit
deriving DecidableEq, Repr

/-- Modelled from the spec: the operation payload (`OperationPB`), an
opaque record exposing an identifier, a kind and a stable serialized
byte size (`SpaceUsed`). -/
structure OperationPB where
  id : OpId
  kind : OpKind
  spaceUsed : Nat
deriving DecidableEq, Repr

/-- Modelled from the spec: `OperationStatusTracker` holds exactly one
operation plus the set of peers that have acknowledged it (the
tracker's implementation is not part of the provided sources; each
tracker holds an operation of a single kind, so one ack set suffices
observationally). -/
structure OperationStatusTracker where
  operation : OperationPB
  acks : List String
deriving DecidableEq, Repr

/-- Modelled from the spec: `AckPeer` records an acknowledgement and is
idempotent: re-acking by the same peer is a no-op. -/
def OperationStatusTracker.ackPeer (ost : OperationStatusTracker) (uuid : String) :
    OperationStatusTracker :=
  if uuid ∈ ost.acks then ost else { ost with acks := uuid :: ost.acks }

instance (u : String) (l : List String) : Decidable (u ∈ l) := List.instDecidableMemOfLawfulBEq u l

/-- Modelled from the spec: `IsAllDone` holds when every
currently-tracked peer has acknowledged the operation. -/
def OperationStatusTracker.isAllDoneW (ost : OperationStatusTracker)
    (peers : List String) : Bool :=
  peers.all (fun p => decide (p ∈ ost.acks))

/-- Modelled from the spec: `IsDone` holds when at least a majority
(externally supplied size) has acknowledged the operation. -/
def OperationStatusTracker.isDoneW (ost : OperationStatusTracker)
    (majority : Nat) : Bool :=
  decide (majority ≤ ost.acks.length)

/-- The per-peer watermark record (`ConsensusStatusPB`): received,
replicated and safe-commit watermarks. -/
structure ConsensusStatusPB where
  receivedWatermark : OpId
  replicatedWatermark : OpId
  safeCommitWatermark : OpId
deriving DecidableEq, Repr

/-- The five `AtomicGauge<int64_t>` metrics of `PeerMessageQueue::Metrics`. -/
structure Metrics where
  totalNumOps : Int
  numAllDoneOps : Int
  numMajorityDoneOps : Int
  numInProgressOps : Int
  queueSizeBytes : Int
deriving DecidableEq, Repr

/-- Queue lifecycle state (`kQueueOpen` / `kQueueClosed`). -/
inductive QState where
  | kQueueOpen
  | kQueueClosed
deriving DecidableEq, Repr

/-- Status results produced by the queue's methods. -/
inductive Status where
  | ok
  | serviceUnavailable
  | notFound
deriving DecidableEq, Repr

/-- The `PeerMessageQueue` state: hard limits, the soft limits that the
source stores inside the child and parent `MemTracker`s, the metric
gauges, the lifecycle state, the watermarks map, the ordered messages
buffer, and the child/parent tracker consumptions (the `MemTracker`
implementation is not part of the provided sources; its two-level
consumption bookkeeping is modelled from the spec and flattened into
the queue state). -/
structure PeerMessageQueue where
  maxOpsSizeBytesHard : Int
  globalMaxOpsSizeBytesHard : Int
  localSoftLimit : Int
  globalSoftLimit : Int
  majoritySize : Nat
  metrics : Metrics
  state : QState
  watermarks : List (String × ConsensusStatusPB)
  messages : List (OpId × OperationStatusTracker)
  childConsumption : Int
  parentConsumption : Int
deriving DecidableEq, Repr

/-- The peers currently present in the watermarks map. -/
def trackedPeers (q : PeerMessageQueue) : List String :=
  q.watermarks.map Prod.fst

/-- Watermarks-map lookup (`FindPtrOrNull` / `FindOrDie`). -/
def lookupWm (u : String) : List (String × ConsensusStatusPB) → Option ConsensusStatusPB
  | [] => none
  | e :: rest => if e.1 = u then some e.2 else lookupWm u rest

/-- In-place overwrite of a peer's watermark record (`CopyFrom`). -/
def updateWm (u : String) (v : ConsensusStatusPB) :
    List (String × ConsensusStatusPB) → List (String × ConsensusStatusPB)
  | [] => []
  | e :: rest => if e.1 = u then (e.1, v) :: rest else e :: updateWm u v rest

/-- Removal of a peer's watermark record (`EraseKeyReturnValuePtr`). -/
def eraseWm (u : String) :
    List (String × ConsensusStatusPB) → List (String × ConsensusStatusPB)
  | [] => []
  | e :: rest => if e.1 = u then rest else e :: eraseWm u rest

/-- Messages-buffer key lookup (`messages_.find`). -/
def lookupMsg (k : OpId) : List (OpId × OperationStatusTracker) → Option OperationStatusTracker
  | [] => none
  | e :: rest => if e.1 = k then some e.2 else lookupMsg k rest

/-- Whether the messages buffer already holds the given key (the fatal
duplicate test of `InsertOrDieNoPrint`). -/
def containsKeyMsg (k : OpId) (l : List (OpId × OperationStatusTracker)) : Bool :=
  l.any (fun e => decide (e.1 = k))

/-- Ordered insertion into the messages buffer, as `std::map` insertion
maintains ascending key order. -/
def insertMsg (e : OpId × OperationStatusTracker) :
    List (OpId × OperationStatusTracker) → List (OpId × OperationStatusTracker)
  | [] => [e]
  | x :: xs => if opIdLt e.1 x.1 then e :: x :: xs else x :: insertMsg e xs

/-- Modelled from the spec: `messages_.upper_bound(k)` positions at the
smallest key strictly greater than `k`; on the ascending list this is
the suffix after dropping every key `≤ k`. -/
def upperBound (k : OpId) (l : List (OpId × OperationStatusTracker)) :
    List (OpId × OperationStatusTracker) :=
  l.dropWhile (fun e => decide (opIdLe e.1 k))

/-- `PeerMessageQueue::CheckHardLimitsNotViolated`, over the raw
consumptions: true iff adding `bytes` violates neither the local nor
the global hard limit. -/
def checkHard (localHard globalHard child parent bytes : Int) : Bool :=
  !(decide (localHard < bytes + child)) && !(decide (globalHard < bytes + parent))

/-- `PeerMessageQueue::CheckHardLimitsNotViolated` on the queue state. -/
def checkHardLimitsNotViolated (q : PeerMessageQueue) (bytes : Int) : Bool :=
  checkHard q.maxOpsSizeBytesHard q.globalMaxOpsSizeBytesHard
    q.childConsumption q.parentConsumption bytes

/-- Modelled from the spec: `MemTracker::AnyLimitExceeded` is true iff
some node on the path to the root has consumption above its (soft)
limit. -/
def anyLimitExceeded (q : PeerMessageQueue) : Bool :=
  decide (q.localSoftLimit < q.childConsumption) ||
  decide (q.globalSoftLimit < q.parentConsumption)

/-- Modelled from the spec: `MemTracker::SpareCapacity` of the child
tracker returns `max(0, soft_limit - consumption)`. -/
def spareCapacity (localSoft child : Int) : Int :=
  max 0 (localSoft - child)

/-- Result of the `TrimBufferForMessage` loop: the surviving buffer,
the two tracker consumptions, the metrics, and the returned status. -/
structure TrimResult where
  messages : List (OpId × OperationStatusTracker)
  child : Int
  parent : Int
  metrics : Metrics
  status : Status
deriving DecidableEq, Repr

/-- The status returned when the trim loop stalls (empty buffer or a
head entry that is not all-done): ok if the hard limits admit the new
operation or it is a COMMIT, `ServiceUnavailable` otherwise. -/
def trimStallStatus (isCommit : Bool) (bytes localHard globalHard child parent : Int) :
    Status :=
  if checkHard localHard globalHard child parent bytes || isCommit then Status.ok
  else Status.serviceUnavailable

/-- The `while (bytes > tracker_->SpareCapacity())` loop of
`PeerMessageQueue::TrimBufferForMessage`: erase all-done entries from
the head, releasing their bytes from both trackers and decrementing
`total_num_ops`, `num_all_done_ops` and `queue_size_bytes`, until
enough spare capacity exists or a non-reclaimable entry stalls the
loop. -/
def trimLoop (isCommit : Bool) (bytes localSoft localHard globalHard : Int)
    (peers : List String) :
    List (OpId × OperationStatusTracker) → Int → Int → Metrics → TrimResult
  | [], child, parent, m =>
    if spareCapacity localSoft child < bytes then
      ⟨[], child, parent, m,
        trimStallStatus isCommit bytes localHard globalHard child parent⟩
    else ⟨[], child, parent, m, Status.ok⟩
  | e :: rest, child, parent, m =>
    if spareCapacity localSoft child < bytes then
      if e.2.isAllDoneW peers then
        let b : Int := e.2.operation.spaceUsed
        trimLoop isCommit bytes localSoft localHard globalHard peers rest
          (child - b) (parent - b)
          { m with totalNumOps := m.totalNumOps - 1,
                   numAllDoneOps := m.numAllDoneOps - 1,
                   queueSizeBytes := m.queueSizeBytes - b }
      else
        ⟨e :: rest, child, parent, m,
          trimStallStatus isCommit bytes localHard globalHard child parent⟩
    else ⟨e :: rest, child, parent, m, Status.ok⟩

/-- Write a trim-loop result back into the queue state. -/
def applyTrim (q : PeerMessageQueue) (r : TrimResult) : PeerMessageQueue × Status :=
  ({ q with messages := r.messages, childConsumption := r.child,
            parentConsumption := r.parent, metrics := r.metrics }, r.status)

/-- `PeerMessageQueue::TrimBufferForMessage`. -/
def trimBufferForMessage (operation : OperationPB) (q : PeerMessageQueue) :
    PeerMessageQueue × Status :=
  applyTrim q
    (trimLoop (decide (operation.kind = OpKind.commit)) (operation.spaceUsed : Int)
      q.localSoftLimit q.maxOpsSizeBytesHard q.globalMaxOpsSizeBytesHard
      (trackedPeers q) q.messages q.childConsumption q.parentConsumption q.metrics)

/-- `PeerMessageQueue::AppendOperation`: trim when a soft limit is
exceeded (propagating `ServiceUnavailable`), charge the operation's
bytes to the child tracker (which forwards to the parent) and the
`queue_size_bytes` gauge, insert the tracker keyed by its `OpId`
(fatal, `none`, on a duplicate key), bump `total_num_ops` and bucket
the entry by its current done state. -/
def appendOperation (status : OperationStatusTracker) (q : PeerMessageQueue) :
    Option (PeerMessageQueue × Status) :=
  let operation := status.operation
  let ts := if anyLimitExceeded q then trimBufferForMessage operation q else (q, Status.ok)
  let q1 := ts.1
  match ts.2 with
  | Status.ok =>
    let q2 := { q1 with
      metrics := { q1.metrics with
        queueSizeBytes := q1.metrics.queueSizeBytes + operation.spaceUsed },
      childConsumption := q1.childConsumption + operation.spaceUsed,
      parentConsumption := q1.parentConsumption + operation.spaceUsed }
    if containsKeyMsg operation.id q2.messages then none
    else
      let q3 := { q2 with messages := insertMsg (operation.id, status) q2.messages }
      let m1 := { q3.metrics with totalNumOps := q3.metrics.totalNumOps + 1 }
      let m2 :=
        if status.isAllDoneW (trackedPeers q3) then
          { m1 with numAllDoneOps := m1.numAllDoneOps + 1 }
        else if status.isDoneW q.majoritySize then
          { m1 with numMajorityDoneOps := m1.numMajorityDoneOps + 1 }
        else
          { m1 with numInProgressOps := m1.numInProgressOps + 1 }
      some ({ q3 with metrics := m2 }, Status.ok)
  | s => some (q1, s)

/-- Modelled from the spec: the request's serialized byte size
(`request->ByteSize()`), modelled as the sum of the attached
operations' byte sizes. -/
def requestByteSize (ops : List OperationPB) : Nat :=
  (ops.map OperationPB.spaceUsed).sum

/-- The attach loop of `PeerMessageQueue::RequestForPeer`: attach
operations in buffer order; on exceeding `max_batch_size_bytes` after
an attach, release the last attached op when more than one is held
(never when exactly one is held) and stop. -/
def requestBatch (maxBatch : Nat) :
    List (OpId × OperationStatusTracker) → List OperationPB → List OperationPB
  | [], acc => acc
  | e :: rest, acc =>
    let acc2 := acc ++ [e.2.operation]
    if maxBatch < requestByteSize acc2 then
      if 1 < acc2.length then acc2.dropLast else acc2
    else requestBatch maxBatch rest acc2

/-- `PeerMessageQueue::RequestForPeer`: clear the request, look up the
peer's watermark (fatal, `none`, when untracked: `FindOrDie`), and
batch operations starting at `upper_bound(received_watermark)`.  The
queue state itself is not modified; the function returns the attached
operations. -/
def requestForPeer (uuid : String) (maxBatch : Nat) (q : PeerMessageQueue) :
    Option (List OperationPB) :=
  match lookupWm uuid q.watermarks with
  | none => none
  | some cs => some (requestBatch maxBatch (upperBound cs.receivedWatermark q.messages) [])

/-- The per-entry ack condition of the `ResponseFromPeer` loop: a
COMMIT between the acked and incoming safe-commit watermarks, or a
REPLICATE between the acked and incoming replicated watermarks (the
source tests `operation->id()`). -/
def AckCond (cur new : ConsensusStatusPB) (e : OpId × OperationStatusTracker) : Prop :=
  (e.2.operation.kind = OpKind.commit ∧
    opIdLt cur.safeCommitWatermark e.2.operation.id ∧
    opIdLe e.2.operation.id new.safeCommitWatermark) ∨
  (e.2.operation.kind = OpKind.replicate ∧
    opIdLt cur.replicatedWatermark e.2.operation.id ∧
    opIdLe e.2.operation.id new.replicatedWatermark)

instance (cur new : ConsensusStatusPB) (e : OpId × OperationStatusTracker) :
    Decidable (AckCond cur new e) := by
  unfold AckCond
  infer_instance

/-- One iteration of the `ResponseFromPeer` loop: capture the done
state before, ack when the watermark window admits it, and apply the
gauge transitions for entries newly done or newly all-done. -/
def respEntry (uuid : String) (cur new : ConsensusStatusPB) (peers : List String)
    (majority : Nat) (e : OpId × OperationStatusTracker) (m : Metrics) :
    (OpId × OperationStatusTracker) × Metrics :=
  let ost := e.2
  let wasDone := ost.isDoneW majority
  let wasAllDone := ost.isAllDoneW peers
  let ost2 := if AckCond cur new e then ost.ackPeer uuid else ost
  let m1 :=
    if ost2.isAllDoneW peers && !wasAllDone then
      { m with numAllDoneOps := m.numAllDoneOps + 1,
               numMajorityDoneOps := m.numMajorityDoneOps - 1 }
    else m
  let m2 :=
    if ost2.isDoneW majority && !wasDone then
      { m1 with numMajorityDoneOps := m1.numMajorityDoneOps + 1,
                numInProgressOps := m1.numInProgressOps - 1 }
    else m1
  ((e.1, ost2), m2)

/-- The `ResponseFromPeer` loop over the watermark window. -/
def respFold (uuid : String) (cur new : ConsensusStatusPB) (peers : List String)
    (majority : Nat) :
    List (OpId × OperationStatusTracker) → Metrics →
      List (OpId × OperationStatusTracker) × Metrics
  | [], m => ([], m)
  | e :: rest, m =>
    let em := respEntry uuid cur new peers majority e m
    let rm := respFold uuid cur new peers majority rest em.2
    (em.1 :: rm.1, rm.2)

/-- `PeerMessageQueue::ResponseFromPeer`: on a closed queue or an
untracked peer, report `more_pending = false` and change nothing;
otherwise process the entries between `upper_bound(min(replicated,
safe_commit))` and `upper_bound(new.received)`, overwrite the peer's
watermark record with the new status, and report whether entries
beyond `new.received` remain. -/
def responseFromPeer (uuid : String) (new : ConsensusStatusPB) (q : PeerMessageQueue) :
    PeerMessageQueue × Bool :=
  match lookupWm uuid q.watermarks with
  | none => (q, false)
  | some cur =>
    if q.state = QState.kQueueClosed then (q, false)
    else
      let lowest := minOpId cur.replicatedWatermark cur.safeCommitWatermark
      let pre := q.messages.takeWhile (fun e => decide (opIdLe e.1 lowest))
      let rest := q.messages.dropWhile (fun e => decide (opIdLe e.1 lowest))
      let window := rest.takeWhile (fun e => decide (opIdLe e.1 new.receivedWatermark))
      let post := rest.dropWhile (fun e => decide (opIdLe e.1 new.receivedWatermark))
      let wm := respFold uuid cur new (trackedPeers q) q.majoritySize window q.metrics
      ({ q with messages := pre ++ wm.1 ++ post,
                metrics := wm.2,
                watermarks := updateWm uuid new q.watermarks },
       !(upperBound new.receivedWatermark q.messages).isEmpty)

/-- `PeerMessageQueue::TrackPeer`: fatal (`none`) when the uuid is
already tracked (`InsertOrDie`); otherwise install a watermark record
whose three `OpId`s all equal the initial watermark and return ok. -/
def trackPeer (uuid : String) (initialWatermark : OpId) (q : PeerMessageQueue) :
    Option (PeerMessageQueue × Status) :=
  match lookupWm uuid q.watermarks with
  | some _ => none
  | none =>
    some ({ q with watermarks :=
        (uuid, ⟨initialWatermark, initialWatermark, initialWatermark⟩) :: q.watermarks },
      Status.ok)

/-- `PeerMessageQueue::UntrackPeer`: remove the watermark record if
present, a no-op otherwise. -/
def untrackPeer (uuid : String) (q : PeerMessageQueue) : PeerMessageQueue :=
  { q with watermarks := eraseWm uuid q.watermarks }

/-- `PeerMessageQueue::GetOperationStatus`: a single map lookup. -/
def getOperationStatus (opId : OpId) (q : PeerMessageQueue) :
    Status × Option OperationStatusTracker :=
  match lookupMsg opId q.messages with
  | none => (Status.notFound, none)
  | some ost => (Status.ok, some ost)

/-- A public queue operation, for reasoning about reachable states. -/
inductive QueueOp where
  | append (status : OperationStatusTracker)
  | response (uuid : String) (newStatus : ConsensusStatusPB)
  | request (uuid : String) (maxBatch : Nat)
  | track (uuid : String) (wm : OpId)
  | untrack (uuid : String)
  | getStatus (opId : OpId)

/-- One public operation applied to the queue state; `none` models a
fatal `CHECK` failure. -/
def step (op : QueueOp) (q : PeerMessageQueue) : Option PeerMessageQueue :=
  match op with
  | QueueOp.append status => (appendOperation status q).map Prod.fst
  | QueueOp.response uuid ns => some (responseFromPeer uuid ns q).fst
  | QueueOp.request uuid maxBatch => (requestForPeer uuid maxBatch q).map (fun _ => q)
  | QueueOp.track uuid wm => (trackPeer uuid wm q).map Prod.fst
  | QueueOp.untrack uuid => some (untrackPeer uuid q)
  | QueueOp.getStatus _ => some q

/-- A sequence of public operations applied in order. -/
def runOps (ops : List QueueOp) (q : PeerMessageQueue) : Option PeerMessageQueue :=
  ops.foldl (fun acc op => acc.bind (step op)) (some q)

/-- The freshly-constructed queue: open, empty, all gauges zero, child
consumption zero; the parent tracker may already carry consumption from
other queues (`parentInit`). -/
def initQueue (localSoft localHard globalSoft globalHard : Int) (majority : Nat)
    (parentInit : Int) : PeerMessageQueue :=
  { maxOpsSizeBytesHard := localHard
    globalMaxOpsSizeBytesHard := globalHard
    localSoftLimit := localSoft
    globalSoftLimit := globalSoft
    majoritySize := majority
    metrics := ⟨0, 0, 0, 0, 0⟩
    state := QState.kQueueOpen
    watermarks := []
    messages := []
    childConsumption := 0
    parentConsumption := parentInit }

/-- Total bytes of the operations held in the messages buffer. -/
def msgBytes (l : List (OpId × OperationStatusTracker)) : Int :=
  (l.map (fun e => (e.2.operation.spaceUsed : Int))).sum

/-- The bucket-partition gauge equation on the metrics record. -/
def partitionM (m : Metrics) : Prop :=
  m.totalNumOps = m.numAllDoneOps + m.numMajorityDoneOps + m.numInProgressOps

/-- The bucket-partition gauge equation. -/
def partitionInv (q : PeerMessageQueue) : Prop :=
  partitionM q.metrics

/-- The byte-accounting gauge equation. -/
def accountInv (q : PeerMessageQueue) : Prop :=
  q.metrics.queueSizeBytes = msgBytes q.messages ∧
  q.childConsumption = msgBytes q.messages

/- Concrete inputs used by the witness theorems. -/

def wmZero : OpId := ⟨0, 0⟩

def csZero : ConsensusStatusPB := ⟨wmZero, wmZero, wmZero⟩

def opR1 : OperationPB := ⟨⟨1, 1⟩, OpKind.replicate, 100⟩

def opR2 : OperationPB := ⟨⟨1, 2⟩, OpKind.replicate, 100⟩

def opC3 : OperationPB := ⟨⟨1, 3⟩, OpKind.commit, 200⟩

def ostR1 : OperationStatusTracker := ⟨opR1, []⟩

def ostR2 : OperationStatusTracker := ⟨opR2, []⟩

def ostR1Acked : OperationStatusTracker := ⟨opR1, ["a"]⟩

def ostC3 : OperationStatusTracker := ⟨opC3, []⟩

def c8q : PeerMessageQueue :=
  { initQueue 1000 2000 10000 20000 1 0 with watermarks := [("a", csZero)] }

def c2q : PeerMessageQueue :=
  { initQueue 100 2000 10000 20000 1 0 with
      watermarks := [("a", csZero)]
      messages := [(⟨1, 1⟩, ostR1Acked), (⟨1, 2⟩, ostR2)]
      childConsumption := 200
      parentConsumption := 200
      metrics := ⟨2, 1, 0, 1, 200⟩ }

def c2op : OperationPB := ⟨⟨1, 4⟩, OpKind.replicate, 150⟩

def opR200 : OperationPB := ⟨⟨1, 1⟩, OpKind.replicate, 200⟩

def c1ost : OperationStatusTracker := ⟨opR200, []⟩

def c1q : PeerMessageQueue := initQueue 1000 100 1000 100 1 0

def c1res : PeerMessageQueue := ((appendOperation c1ost c1q).getD (c1q, Status.ok)).1

def c1wq : PeerMessageQueue := initQueue 1000 2000 1500 3000 1 0

def c1wres : PeerMessageQueue := ((appendOperation ostR1 c1wq).getD (c1wq, Status.ok)).1

def demoInit : PeerMessageQueue := initQueue 1000000 2000000 3000000 4000000 1 0

def demoCs : ConsensusStatusPB := ⟨⟨1, 2⟩, ⟨1, 2⟩, ⟨0, 0⟩⟩

def demoOps : List QueueOp :=
  [QueueOp.track "a" wmZero, QueueOp.append ostR1, QueueOp.append ostR2,
   QueueOp.response "a" demoCs, QueueOp.request "a" 1000,
   QueueOp.getStatus ⟨1, 1⟩, QueueOp.untrack "a"]

def demoFinal : PeerMessageQueue := (runOps demoOps demoInit).getD demoInit

def c5q : PeerMessageQueue :=
  { initQueue 1000000 2000000 3000000 4000000 1 0 with
      watermarks := [("a", csZero)]
      messages := [(⟨1, 1⟩, ostR1), (⟨1, 2⟩, ostR2)]
      childConsumption := 200
      parentConsumption := 200
      metrics := ⟨2, 0, 0, 2, 200⟩ }

/- Order lemmas for OpId. -/

theorem opId_eq_iff (a b : OpId) : a = b ↔ (a.term = b.term ∧ a.index = b.index) := by
  cases a
  cases b
  simp

theorem opIdLe_iff (a b : OpId) :
    opIdLe a b ↔ (a.term < b.term ∨ (a.term = b.term ∧ a.index ≤ b.index)) := by
  cases a
  cases b
  simp only [opIdLe, opIdLt, opId_eq_iff]
  omega

theorem opIdLt_iff (a b : OpId) :
    opIdLt a b ↔ (a.term < b.term ∨ (a.term = b.term ∧ a.index < b.index)) := Iff.rfl

theorem opIdLt_of_not_le {a b : OpId} (h : ¬ opIdLe a b) : opIdLt b a := by
  rw [opIdLe_iff] at h
  rw [opIdLt_iff]
  omega

theorem opIdLe_trans {a b c : OpId} (h1 : opIdLe a b) (h2 : opIdLe b c) : opIdLe a c := by
  rw [opIdLe_iff] at *
  omega

theorem opIdLt_le_asymm {a b : OpId} (h1 : opIdLt a b) (h2 : opIdLe b a) : False := by
  rw [opIdLt_iff] at h1
  rw [opIdLe_iff] at h2
  omega

theorem opIdLt_le_trans {a b c : OpId} (h1 : opIdLt a b) (h2 : opIdLe b c) : opIdLt a c := by
  rw [opIdLt_iff] at *
  rw [opIdLe_iff] at h2
  omega

theorem opIdLe_lt_trans {a b c : OpId} (h1 : opIdLe a b) (h2 : opIdLt b c) : opIdLt a c := by
  rw [opIdLe_iff] at h1
  rw [opIdLt_iff] at *
  omega

theorem minOpId_le_left (a b : OpId) : opIdLe (minOpId a b) a := by
  unfold minOpId
  split
  · rw [opIdLe_iff]
    rw [opIdLt_iff] at *
    omega
  · exact Or.inr rfl

theorem minOpId_le_right (a b : OpId) : opIdLe (minOpId a b) b := by
  unfold minOpId
  split
  · exact Or.inr rfl
  · rename_i h
    rw [opIdLt_iff] at h
    rw [opIdLe_iff]
    omega

/- Trim-loop structure lemmas. -/

theorem trimLoop_erased (isCommit : Bool) (bytes localSoft localHard globalHard : Int)
    (peers : List String) :
    ∀ (msgs : List (OpId × OperationStatusTracker)) (child parent : Int) (m : Metrics),
      ∃ erased,
        msgs = erased ++
          (trimLoop isCommit bytes localSoft localHard globalHard peers msgs
            child parent m).messages ∧
        ∀ e ∈ erased, e.2.isAllDoneW peers = true := by
  intro msgs
  induction msgs with
  | nil =>
    intro child parent m
    refine ⟨[], ?_, by simp⟩
    simp only [trimLoop]
    split <;> simp
  | cons e rest ih =>
    intro child parent m
    simp only [trimLoop]
    split
    · split
      · rename_i hcap hdone
        obtain ⟨er, hsplit, hall⟩ :=
          ih (child - (e.2.operation.spaceUsed : Int))
             (parent - (e.2.operation.spaceUsed : Int))
             { m with totalNumOps := m.totalNumOps - 1,
                      numAllDoneOps := m.numAllDoneOps - 1,
                      queueSizeBytes := m.queueSizeBytes - (e.2.operation.spaceUsed : Int) }
        refine ⟨e :: er, ?_, ?_⟩
        · simpa using hsplit
        · intro x hx
          rcases List.mem_cons.mp hx with hx | hx
          · subst hx
            exact hdone
          · exact hall x hx
      · exact ⟨[], by simp, by simp⟩
    · exact ⟨[], by simp, by simp⟩

theorem trimLoop_commit_ok (bytes localSoft localHard globalHard : Int)
    (peers : List String) :
    ∀ (msgs : List (OpId × OperationStatusTracker)) (child parent : Int) (m : Metrics),
      (trimLoop true bytes localSoft localHard globalHard peers msgs
        child parent m).status = Status.ok := by
  intro msgs
  induction msgs with
  | nil =>
    intro child parent m
    simp only [trimLoop]
    split
    · simp [trimStallStatus]
    · rfl
  | cons e rest ih =>
    intro child parent m
    simp only [trimLoop]
    split
    · split
      · exact ih _ _ _
      · simp [trimStallStatus]
    · rfl

theorem containsKeyMsg_append (k : OpId) (l1 l2 : List (OpId × OperationStatusTracker)) :
    containsKeyMsg k (l1 ++ l2) = (containsKeyMsg k l1 || containsKeyMsg k l2) := by
  simp [containsKeyMsg, List.any_append]

theorem mem_insertMsg (e : OpId × OperationStatusTracker)
    (l : List (OpId × OperationStatusTracker)) : e ∈ insertMsg e l := by
  induction l with
  | nil => simp [insertMsg]
  | cons x xs ih =>
    simp only [insertMsg]
    split
    · exact List.mem_cons_self _ _
    · exact List.mem_cons_of_mem _ ih

/-- C2: `TrimBufferForMessage` erases only a prefix of the messages
buffer, and every erased entry is `is_all_done` at the time of the trim;
no non-all-done entry is ever erased and no gap is created. -/
theorem trimBufferForMessage_reclaim_safety (operation : OperationPB)
    (q : PeerMessageQueue) :
    ∃ erased,
      q.messages = erased ++ (trimBufferForMessage operation q).1.messages ∧
      ∀ e ∈ erased, e.2.isAllDoneW (trackedPeers q) = true := by
  have h := trimLoop_erased (decide (operation.kind = OpKind.commit))
    (operation.spaceUsed : Int) q.localSoftLimit q.maxOpsSizeBytesHard
    q.globalMaxOpsSizeBytesHard (trackedPeers q) q.messages
    q.childConsumption q.parentConsumption q.metrics
  simpa [trimBufferForMessage] using h

/-- Witness for C2 at a concrete queue under memory pressure: the trim
erases exactly the all-done head. -/
theorem trimBufferForMessage_reclaim_safety_witness :
    ∃ erased,
      c2q.messages = erased ++ (trimBufferForMessage c2op c2q).1.messages ∧
      ∀ e ∈ erased, e.2.isAllDoneW (trackedPeers c2q) = true :=
  trimBufferForMessage_reclaim_safety c2op c2q

/-- C7: appending a COMMIT operation to an open queue always returns ok
and inserts the entry, even under memory pressure: COMMITs bypass the
hard-limit veto. -/
theorem appendOperation_commit_admitted (status : OperationStatusTracker)
    (q : PeerMessageQueue)
    (hk : status.operation.kind = OpKind.commit)
    (hopen : q.state = QState.kQueueOpen)
    (hfresh : containsKeyMsg status.operation.id q.messages = false) :
    ∃ q', appendOperation status q = some (q', Status.ok) ∧
      (status.operation.id, status) ∈ q'.messages := by
  have hts : ∃ q1,
      (if anyLimitExceeded q then trimBufferForMessage status.operation q
        else (q, Status.ok)) = (q1, Status.ok) ∧
      containsKeyMsg status.operation.id q1.messages = false := by
    cases hA : anyLimitExceeded q
    · exact ⟨q, by simp, hfresh⟩
    · have hcommit : decide (status.operation.kind = OpKind.commit) = true := by
        simp only [decide_eq_true_eq]
        exact hk
      have hst : (trimBufferForMessage status.operation q).2 = Status.ok := by
        show (trimLoop (decide (status.operation.kind = OpKind.commit))
          (status.operation.spaceUsed : Int) q.localSoftLimit q.maxOpsSizeBytesHard
          q.globalMaxOpsSizeBytesHard (trackedPeers q) q.messages
          q.childConsumption q.parentConsumption q.metrics).status = Status.ok
        rw [hcommit]
        exact trimLoop_commit_ok _ _ _ _ _ _ _ _ _
      refine ⟨(trimBufferForMessage status.operation q).1, ?_, ?_⟩
      · rw [if_pos rfl, ← hst]
      · obtain ⟨er, hsplit, _⟩ := trimBufferForMessage_reclaim_safety status.operation q
        have hcat : containsKeyMsg status.operation.id
            (er ++ (trimBufferForMessage status.operation q).1.messages) = false := by
          rw [← hsplit]
          exact hfresh
        rw [containsKeyMsg_append] at hcat
        exact (Bool.or_eq_false_iff.mp hcat).2
  obtain ⟨q1, hts, hfresh1⟩ := hts
  simp only [appendOperation, hts]
  rw [if_neg (by simp [hfresh1])]
  exact ⟨_, rfl, mem_insertMsg _ _⟩

/-- Witness for C7: a concrete COMMIT appended to a queue already past
its hard limit is still admitted. -/
theorem appendOperation_commit_admitted_witness :
    ostC3.operation.kind = OpKind.commit ∧
    c2q.state = QState.kQueueOpen ∧
    containsKeyMsg ostC3.operation.id c2q.messages = false ∧
    (∃ q', appendOperation ostC3 c2q = some (q', Status.ok) ∧
      (ostC3.operation.id, ostC3) ∈ q'.messages) :=
  ⟨rfl, rfl, by decide,
    appendOperation_commit_admitted ostC3 c2q rfl rfl (by decide)⟩

/-- C8 counterexample: tracking an already-tracked peer does not return
an `already_tracked` error; `InsertOrDie` makes it a fatal crash
(modelled as `none`). -/
theorem trackPeer_duplicate_fatal_cex : trackPeer "a" ⟨1, 1⟩ c8q = none := rfl

/-- C8 (amended): on an open queue, `TrackPeer` crashes fatally
(`InsertOrDie` `CHECK` failure, modelled as `none`) when the uuid is
already present, and otherwise installs a watermark record whose three
`OpId`s all equal the initial watermark and returns ok. -/
theorem trackPeer_spec (uuid : String) (wm : OpId) (q : PeerMessageQueue)
    (hopen : q.state = QState.kQueueOpen) :
    (∀ cs, lookupWm uuid q.watermarks = some cs → trackPeer uuid wm q = none) ∧
    (lookupWm uuid q.watermarks = none →
      ∃ q', trackPeer uuid wm q = some (q', Status.ok) ∧
        lookupWm uuid q'.watermarks = some ⟨wm, wm, wm⟩ ∧
        q'.messages = q.messages ∧ q'.state = q.state) := by
  constructor
  · intro cs hcs
    simp [trackPeer, hcs]
  · intro hnone
    refine ⟨{ q with watermarks := (uuid, ⟨wm, wm, wm⟩) :: q.watermarks }, ?_, ?_, rfl, rfl⟩
    · simp [trackPeer, hnone]
    · simp [lookupWm]

/-- Witness for C8 (amended) at a concrete fresh uuid. -/
theorem trackPeer_spec_witness :
    c8q.state = QState.kQueueOpen ∧
    ((∀ cs, lookupWm "b" c8q.watermarks = some cs → trackPeer "b" ⟨2, 3⟩ c8q = none) ∧
     (lookupWm "b" c8q.watermarks = none →
       ∃ q', trackPeer "b" ⟨2, 3⟩ c8q = some (q', Status.ok) ∧
         lookupWm "b" q'.watermarks = some ⟨⟨2, 3⟩, ⟨2, 3⟩, ⟨2, 3⟩⟩ ∧
         q'.messages = c8q.messages ∧ q'.state = c8q.state)) :=
  ⟨rfl, trackPeer_spec "b" ⟨2, 3⟩ c8q rfl⟩

/-- C10: `RequestForPeer` on a tracked peer of an open queue leaves the
entire queue state unchanged: the step relation returns exactly the
input state. -/
theorem requestForPeer_frame (uuid : String) (maxBatch : Nat) (q : PeerMessageQueue)
    (hopen : q.state = QState.kQueueOpen)
    (htracked : lookupWm uuid q.watermarks ≠ none) :
    step (QueueOp.request uuid maxBatch) q = some q := by
  simp only [step, requestForPeer]
  cases h : lookupWm uuid q.watermarks
  · exact absurd h htracked
  · rfl

/-- Witness for C10 at a concrete tracked peer. -/
theorem requestForPeer_frame_witness :
    c8q.state = QState.kQueueOpen ∧
    step (QueueOp.request "a" 5) c8q = some c8q :=
  ⟨rfl, requestForPeer_frame "a" 5 c8q rfl (by decide)⟩

/- Trim-loop exit lemma for REPLICATE appends. -/

theorem trimLoop_replicate_exit (bytes localSoft localHard globalHard : Int)
    (peers : List String) :
    ∀ (msgs : List (OpId × OperationStatusTracker)) (child parent : Int) (m : Metrics),
      (trimLoop false bytes localSoft localHard globalHard peers msgs
          child parent m).status = Status.ok →
      ((spareCapacity localSoft
          (trimLoop false bytes localSoft localHard globalHard peers msgs
            child parent m).child < bytes →
        checkHard localHard globalHard
          (trimLoop false bytes localSoft localHard globalHard peers msgs
            child parent m).child
          (trimLoop false bytes localSoft localHard globalHard peers msgs
            child parent m).parent bytes = true) ∧
       (trimLoop false bytes localSoft localHard globalHard peers msgs
          child parent m).parent -
         (trimLoop false bytes localSoft localHard globalHard peers msgs
            child parent m).child = parent - child) := by
  intro msgs
  induction msgs with
  | nil =>
    intro child parent m
    simp only [trimLoop]
    split
    · rename_i hcap
      simp only [trimStallStatus, Bool.or_false]
      split
      · rename_i hch
        intro _
        exact ⟨fun _ => hch, trivial⟩
      · intro hok
        exact absurd hok (by simp)
    · rename_i hcap
      intro _
      exact ⟨fun h => absurd h hcap, rfl⟩
  | cons e rest ih =>
    intro child parent m
    simp only [trimLoop]
    split
    · split
      · intro hok
        have h := ih (child - (e.2.operation.spaceUsed : Int))
          (parent - (e.2.operation.spaceUsed : Int))
          { m with totalNumOps := m.totalNumOps - 1,
                   numAllDoneOps := m.numAllDoneOps - 1,
                   queueSizeBytes := m.queueSizeBytes - (e.2.operation.spaceUsed : Int) } hok
        exact ⟨h.1, by omega⟩
      · rename_i hcap _
        simp only [trimStallStatus, Bool.or_false]
        split
        · rename_i hch
          intro _
          exact ⟨fun _ => hch, trivial⟩
        · intro hok
          exact absurd hok (by simp)
    · rename_i hcap
      intro _
      exact ⟨fun h => absurd h hcap, rfl⟩

/-- C1 counterexample: a REPLICATE append that returns ok yet leaves the
child consumption above the local hard limit and the parent consumption
above the global hard limit (the soft limits are not exceeded before
the call, so no hard-limit check ever runs). -/
theorem appendOperation_hard_limit_cex :
    appendOperation c1ost c1q = some (c1res, Status.ok) ∧
    c1res.maxOpsSizeBytesHard < c1res.childConsumption ∧
    c1res.globalMaxOpsSizeBytesHard < c1res.parentConsumption := by decide

/-- C1 (amended): for a REPLICATE operation of positive size on an open
queue whose parent tracker carries only this queue's consumption, and
whose hard limits exceed the corresponding soft limits by at least the
operation's size (with `local_soft ≤ global_soft`), an ok return of
`AppendOperation` leaves the child consumption at most `local_hard` and
the parent consumption at most `global_hard`. -/
theorem appendOperation_admission_hard_limits (status : OperationStatusTracker)
    (q q' : PeerMessageQueue)
    (hk : status.operation.kind = OpKind.replicate)
    (hopen : q.state = QState.kQueueOpen)
    (hpos : 1 ≤ status.operation.spaceUsed)
    (hl : q.localSoftLimit + (status.operation.spaceUsed : Int) ≤ q.maxOpsSizeBytesHard)
    (hg : q.globalSoftLimit + (status.operation.spaceUsed : Int) ≤
      q.globalMaxOpsSizeBytesHard)
    (hlg : q.localSoftLimit ≤ q.globalSoftLimit)
    (hpc : q.parentConsumption = q.childConsumption)
    (hok : appendOperation status q = some (q', Status.ok)) :
    q'.childConsumption ≤ q'.maxOpsSizeBytesHard ∧
    q'.parentConsumption ≤ q'.globalMaxOpsSizeBytesHard := by
  have hb : (1 : Int) ≤ (status.operation.spaceUsed : Int) := by exact_mod_cast hpos
  cases hA : anyLimitExceeded q with
  | false =>
    have hsoft : q.childConsumption ≤ q.localSoftLimit ∧
        q.parentConsumption ≤ q.globalSoftLimit := by
      simp only [anyLimitExceeded, Bool.or_eq_false_iff, decide_eq_false_iff_not,
        not_lt] at hA
      exact hA
    simp only [appendOperation, hA] at hok
    simp only [Bool.false_eq_true, if_false] at hok
    cases hc : containsKeyMsg status.operation.id q.messages
    · simp only [hc] at hok
      simp only [Bool.false_eq_true, if_false, Option.some.injEq, Prod.mk.injEq] at hok
      obtain ⟨hq', -⟩ := hok
      subst hq'
      constructor
      · simp only []
        omega
      · simp only []
        omega
    · simp only [hc] at hok
      simp at hok
  | true =>
    have hrep : decide (status.operation.kind = OpKind.commit) = false := by
      simp [hk]
    have htb : trimBufferForMessage status.operation q =
        applyTrim q (trimLoop false (status.operation.spaceUsed : Int)
          q.localSoftLimit q.maxOpsSizeBytesHard q.globalMaxOpsSizeBytesHard
          (trackedPeers q) q.messages q.childConsumption q.parentConsumption q.metrics) := by
      unfold trimBufferForMessage
      rw [hrep]
    simp only [appendOperation, hA, if_true, htb, applyTrim] at hok
    cases hst : (trimLoop false (status.operation.spaceUsed : Int)
        q.localSoftLimit q.maxOpsSizeBytesHard q.globalMaxOpsSizeBytesHard
        (trackedPeers q) q.messages q.childConsumption q.parentConsumption
        q.metrics).status with
    | serviceUnavailable =>
      rw [hst] at hok
      simp at hok
    | notFound =>
      rw [hst] at hok
      simp at hok
    | ok =>
      rw [hst] at hok
      have hexit := trimLoop_replicate_exit (status.operation.spaceUsed : Int)
        q.localSoftLimit q.maxOpsSizeBytesHard q.globalMaxOpsSizeBytesHard
        (trackedPeers q) q.messages q.childConsumption q.parentConsumption q.metrics hst
      cases hc : containsKeyMsg status.operation.id (trimLoop false
          (status.operation.spaceUsed : Int) q.localSoftLimit q.maxOpsSizeBytesHard
          q.globalMaxOpsSizeBytesHard (trackedPeers q) q.messages q.childConsumption
          q.parentConsumption q.metrics).messages
      · simp only [hc] at hok
        simp only [Bool.false_eq_true, if_false, Option.some.injEq, Prod.mk.injEq] at hok
        obtain ⟨hq', -⟩ := hok
        subst hq'
        set r := trimLoop false (status.operation.spaceUsed : Int) q.localSoftLimit
          q.maxOpsSizeBytesHard q.globalMaxOpsSizeBytesHard (trackedPeers q) q.messages
          q.childConsumption q.parentConsumption q.metrics with hr
        obtain ⟨hcheck, hdiff⟩ := hexit
        by_cases hcap : spareCapacity q.localSoftLimit r.child <
            (status.operation.spaceUsed : Int)
        · have hch := hcheck hcap
          simp only [checkHard, Bool.and_eq_true, Bool.not_eq_true',
            decide_eq_false_iff_not, not_lt] at hch
          constructor
          · simp only []
            omega
          · simp only []
            omega
        · have hsp : (status.operation.spaceUsed : Int) ≤
              spareCapacity q.localSoftLimit r.child := not_lt.mp hcap
          have hsp2 : (status.operation.spaceUsed : Int) ≤ q.localSoftLimit - r.child := by
            rcases le_max_iff.mp hsp with h | h
            · omega
            · exact h
          constructor
          · simp only []
            omega
          · simp only []
            omega
      · simp only [hc] at hok
        simp at hok

/-- Witness for C1 (amended): a concrete REPLICATE append under the
amended hypotheses lands below both hard limits. -/
theorem appendOperation_admission_hard_limits_witness :
    appendOperation ostR1 c1wq = some (c1wres, Status.ok) ∧
    c1wres.childConsumption ≤ c1wres.maxOpsSizeBytesHard ∧
    c1wres.parentConsumption ≤ c1wres.globalMaxOpsSizeBytesHard :=
  ⟨by decide,
    appendOperation_admission_hard_limits ostR1 c1wq c1wres rfl rfl (by decide)
      (by decide) (by decide) (by decide) rfl (by decide)⟩

/- Bucket-partition preservation lemmas. -/

theorem trimLoop_partition (isCommit : Bool) (bytes localSoft localHard globalHard : Int)
    (peers : List String) :
    ∀ (msgs : List (OpId × OperationStatusTracker)) (child parent : Int) (m : Metrics),
      partitionM m →
      partitionM (trimLoop isCommit bytes localSoft localHard globalHard peers msgs
        child parent m).metrics := by
  intro msgs
  induction msgs with
  | nil =>
    intro child parent m hm
    simp only [trimLoop]
    split
    · exact hm
    · exact hm
  | cons e rest ih =>
    intro child parent m hm
    simp only [trimLoop]
    split
    · split
      · apply ih
        unfold partitionM at *
        simp only []
        omega
      · exact hm
    · exact hm

theorem respEntry_partition (uuid : String) (cur new : ConsensusStatusPB)
    (peers : List String) (majority : Nat) (e : OpId × OperationStatusTracker)
    (m : Metrics) (hm : partitionM m) :
    partitionM (respEntry uuid cur new peers majority e m).2 := by
  unfold partitionM at *
  simp only [respEntry]
  repeat' split
  all_goals try dsimp only
  all_goals omega

theorem respFold_partition (uuid : String) (cur new : ConsensusStatusPB)
    (peers : List String) (majority : Nat) :
    ∀ (l : List (OpId × OperationStatusTracker)) (m : Metrics),
      partitionM m →
      partitionM (respFold uuid cur new peers majority l m).2 := by
  intro l
  induction l with
  | nil => intro m hm; exact hm
  | cons e rest ih =>
    intro m hm
    simp only [respFold]
    exact ih _ (respEntry_partition uuid cur new peers majority e m hm)

theorem appendOperation_partition (status : OperationStatusTracker)
    {q q1 : PeerMessageQueue} {s : Status}
    (h : appendOperation status q = some (q1, s)) (hq : partitionInv q) :
    partitionInv q1 := by
  obtain ⟨qt, st, hts, hpt⟩ : ∃ qt st,
      (if anyLimitExceeded q then trimBufferForMessage status.operation q
        else (q, Status.ok)) = (qt, st) ∧ partitionInv qt := by
    cases hA : anyLimitExceeded q
    · exact ⟨q, Status.ok, by simp, hq⟩
    · refine ⟨(trimBufferForMessage status.operation q).1,
        (trimBufferForMessage status.operation q).2, by simp, ?_⟩
      unfold trimBufferForMessage applyTrim partitionInv
      simp only []
      exact trimLoop_partition _ _ _ _ _ _ _ _ _ _ hq
  simp only [appendOperation, hts] at h
  cases st with
  | ok =>
    cases hc : containsKeyMsg status.operation.id qt.messages
    · simp only [hc, Bool.false_eq_true, if_false, Option.some.injEq,
        Prod.mk.injEq] at h
      obtain ⟨h1, -⟩ := h
      subst h1
      unfold partitionInv partitionM at *
      split
      · simp only []
        omega
      · split
        · simp only []
          omega
        · simp only []
          omega
    · simp only [hc] at h
      simp at h
  | serviceUnavailable =>
    simp only [Option.some.injEq, Prod.mk.injEq] at h
    obtain ⟨h1, -⟩ := h
    subst h1
    exact hpt
  | notFound =>
    simp only [Option.some.injEq, Prod.mk.injEq] at h
    obtain ⟨h1, -⟩ := h
    subst h1
    exact hpt

theorem responseFromPeer_partition (uuid : String) (ns : ConsensusStatusPB)
    (q : PeerMessageQueue) (hq : partitionInv q) :
    partitionInv (responseFromPeer uuid ns q).1 := by
  cases hw : lookupWm uuid q.watermarks with
  | none => simp only [responseFromPeer, hw]; exact hq
  | some cur =>
    simp only [responseFromPeer, hw]
    split
    · exact hq
    · unfold partitionInv
      simp only []
      exact respFold_partition _ _ _ _ _ _ _ hq

theorem step_partition (op : QueueOp) {q q' : PeerMessageQueue}
    (h : step op q = some q') (hq : partitionInv q) : partitionInv q' := by
  cases op with
  | append status =>
    simp only [step, Option.map_eq_some'] at h
    obtain ⟨⟨q1, s⟩, hap, h1⟩ := h
    subst h1
    exact appendOperation_partition status hap hq
  | response uuid ns =>
    simp only [step, Option.some.injEq] at h
    subst h
    exact responseFromPeer_partition uuid ns q hq
  | request uuid maxBatch =>
    simp only [step, Option.map_eq_some'] at h
    obtain ⟨ops, -, h1⟩ := h
    subst h1
    exact hq
  | track uuid wm =>
    simp only [step, Option.map_eq_some'] at h
    obtain ⟨⟨q1, s⟩, htr, h1⟩ := h
    subst h1
    cases hw : lookupWm uuid q.watermarks
    · simp only [trackPeer, hw, Option.some.injEq, Prod.mk.injEq] at htr
      obtain ⟨h1, -⟩ := htr
      subst h1
      exact hq
    · simp only [trackPeer, hw] at htr
      exact Option.noConfusion htr
  | untrack uuid =>
    simp only [step, Option.some.injEq] at h
    subst h
    exact hq
  | getStatus opId =>
    simp only [step, Option.some.injEq] at h
    subst h
    exact hq

theorem runOps_none (ops : List QueueOp) :
    List.foldl (fun acc op => acc.bind (step op)) none ops = none := by
  induction ops with
  | nil => rfl
  | cons op rest ih => simpa [List.foldl_cons] using ih

theorem runOps_inv_aux (P : PeerMessageQueue → Prop)
    (hstep : ∀ op q q', step op q = some q' → P q → P q') :
    ∀ (ops : List QueueOp) (q q' : PeerMessageQueue),
      P q → runOps ops q = some q' → P q' := by
  intro ops
  induction ops with
  | nil =>
    intro q q' hq h
    simp only [runOps, List.foldl_nil, Option.some.injEq] at h
    subst h
    exact hq
  | cons op rest ih =>
    intro q q' hq h
    simp only [runOps, List.foldl_cons] at h
    have hbind : (some q).bind (step op) = step op q := rfl
    rw [hbind] at h
    cases hs : step op q with
    | none =>
      rw [hs, runOps_none] at h
      exact absurd h (by simp)
    | some q1 =>
      rw [hs] at h
      exact ih q1 q' (hstep op q q1 hs hq) h

/-- C3: every state reachable from a fresh queue by public operations
satisfies the bucket-partition gauge equation
`total_num_ops = num_all_done_ops + num_majority_done_ops + num_in_progress_ops`. -/
theorem runOps_bucket_partition (localSoft localHard globalSoft globalHard : Int)
    (majority : Nat) (parentInit : Int) (ops : List QueueOp) (q : PeerMessageQueue)
    (h : runOps ops
      (initQueue localSoft localHard globalSoft globalHard majority parentInit) =
        some q) :
    partitionInv q :=
  runOps_inv_aux partitionInv (fun op _ _ hs hq => step_partition op hs hq) ops _ q
    (by unfold partitionInv partitionM initQueue; simp) h

/-- Witness for C3: a concrete run of track, appends, a response, a
request, a status lookup and an untrack preserves the partition. -/
theorem runOps_bucket_partition_witness :
    runOps demoOps demoInit = some demoFinal ∧ partitionInv demoFinal :=
  ⟨by decide, runOps_bucket_partition 1000000 2000000 3000000 4000000 1 0 demoOps
    demoFinal (by decide)⟩

/- Byte-accounting preservation lemmas. -/

theorem msgBytes_cons (e : OpId × OperationStatusTracker)
    (l : List (OpId × OperationStatusTracker)) :
    msgBytes (e :: l) = (e.2.operation.spaceUsed : Int) + msgBytes l := by
  simp [msgBytes]

theorem msgBytes_append (l1 l2 : List (OpId × OperationStatusTracker)) :
    msgBytes (l1 ++ l2) = msgBytes l1 + msgBytes l2 := by
  simp [msgBytes]

theorem msgBytes_take_drop (p : (OpId × OperationStatusTracker) → Bool)
    (l : List (OpId × OperationStatusTracker)) :
    msgBytes (l.takeWhile p) + msgBytes (l.dropWhile p) = msgBytes l := by
  rw [← msgBytes_append, List.takeWhile_append_dropWhile]

theorem msgBytes_insertMsg (e : OpId × OperationStatusTracker)
    (l : List (OpId × OperationStatusTracker)) :
    msgBytes (insertMsg e l) = (e.2.operation.spaceUsed : Int) + msgBytes l := by
  induction l with
  | nil => simp [insertMsg, msgBytes]
  | cons x xs ih =>
    simp only [insertMsg]
    split
    · rw [msgBytes_cons]
    · rw [msgBytes_cons, ih, msgBytes_cons]
      ring

theorem trimLoop_account (isCommit : Bool) (bytes localSoft localHard globalHard : Int)
    (peers : List String) :
    ∀ (msgs : List (OpId × OperationStatusTracker)) (child parent : Int) (m : Metrics),
      m.queueSizeBytes = msgBytes msgs → child = msgBytes msgs →
      (trimLoop isCommit bytes localSoft localHard globalHard peers msgs
        child parent m).metrics.queueSizeBytes =
        msgBytes (trimLoop isCommit bytes localSoft localHard globalHard peers msgs
          child parent m).messages ∧
      (trimLoop isCommit bytes localSoft localHard globalHard peers msgs
        child parent m).child =
        msgBytes (trimLoop isCommit bytes localSoft localHard globalHard peers msgs
          child parent m).messages := by
  intro msgs
  induction msgs with
  | nil =>
    intro child parent m h1 h2
    simp only [trimLoop]
    split
    · exact ⟨h1, h2⟩
    · exact ⟨h1, h2⟩
  | cons e rest ih =>
    intro child parent m h1 h2
    simp only [trimLoop]
    split
    · split
      · apply ih
        · rw [msgBytes_cons] at h1
          dsimp only
          omega
        · rw [msgBytes_cons] at h2
          omega
      · exact ⟨h1, h2⟩
    · exact ⟨h1, h2⟩

theorem ackPeer_operation (ost : OperationStatusTracker) (uuid : String) :
    (ost.ackPeer uuid).operation = ost.operation := by
  unfold OperationStatusTracker.ackPeer
  split <;> rfl

theorem respEntry_key (uuid : String) (cur new : ConsensusStatusPB) (peers : List String)
    (majority : Nat) (e : OpId × OperationStatusTracker) (m : Metrics) :
    (respEntry uuid cur new peers majority e m).1.1 = e.1 := rfl

theorem respEntry_operation (uuid : String) (cur new : ConsensusStatusPB)
    (peers : List String) (majority : Nat) (e : OpId × OperationStatusTracker)
    (m : Metrics) :
    (respEntry uuid cur new peers majority e m).1.2.operation = e.2.operation := by
  simp only [respEntry]
  split
  · exact ackPeer_operation _ _
  · rfl

theorem respEntry_queueSize (uuid : String) (cur new : ConsensusStatusPB)
    (peers : List String) (majority : Nat) (e : OpId × OperationStatusTracker)
    (m : Metrics) :
    (respEntry uuid cur new peers majority e m).2.queueSizeBytes = m.queueSizeBytes := by
  simp only [respEntry]
  repeat' split
  all_goals rfl

theorem respFold_msgBytes (uuid : String) (cur new : ConsensusStatusPB)
    (peers : List String) (majority : Nat) :
    ∀ (l : List (OpId × OperationStatusTracker)) (m : Metrics),
      msgBytes (respFold uuid cur new peers majority l m).1 = msgBytes l := by
  intro l
  induction l with
  | nil => intro m; rfl
  | cons e rest ih =>
    intro m
    simp only [respFold]
    rw [msgBytes_cons, msgBytes_cons, ih, respEntry_operation]

theorem respFold_queueSize (uuid : String) (cur new : ConsensusStatusPB)
    (peers : List String) (majority : Nat) :
    ∀ (l : List (OpId × OperationStatusTracker)) (m : Metrics),
      (respFold uuid cur new peers majority l m).2.queueSizeBytes = m.queueSizeBytes := by
  intro l
  induction l with
  | nil => intro m; rfl
  | cons e rest ih =>
    intro m
    simp only [respFold]
    rw [ih, respEntry_queueSize]

theorem appendOperation_account (status : OperationStatusTracker)
    {q q1 : PeerMessageQueue} {s : Status}
    (h : appendOperation status q = some (q1, s)) (hq : accountInv q) :
    accountInv q1 := by
  obtain ⟨qt, st, hts, hpt⟩ : ∃ qt st,
      (if anyLimitExceeded q then trimBufferForMessage status.operation q
        else (q, Status.ok)) = (qt, st) ∧ accountInv qt := by
    cases hA : anyLimitExceeded q
    · exact ⟨q, Status.ok, by simp, hq⟩
    · refine ⟨(trimBufferForMessage status.operation q).1,
        (trimBufferForMessage status.operation q).2, by simp, ?_⟩
      unfold trimBufferForMessage applyTrim accountInv
      dsimp only
      exact trimLoop_account _ _ _ _ _ _ _ _ _ _ hq.1 hq.2
  simp only [appendOperation, hts] at h
  cases st with
  | ok =>
    cases hc : containsKeyMsg status.operation.id qt.messages
    · simp only [hc, Bool.false_eq_true, if_false, Option.some.injEq,
        Prod.mk.injEq] at h
      obtain ⟨h1, -⟩ := h
      subst h1
      unfold accountInv at *
      refine ⟨?_, ?_⟩
      · dsimp only
        repeat' split
        all_goals try dsimp only
        all_goals (simp only [msgBytes_insertMsg]; omega)
      · dsimp only
        simp only [msgBytes_insertMsg]
        omega
    · simp only [hc] at h
      simp at h
  | serviceUnavailable =>
    simp only [Option.some.injEq, Prod.mk.injEq] at h
    obtain ⟨h1, -⟩ := h
    subst h1
    exact hpt
  | notFound =>
    simp only [Option.some.injEq, Prod.mk.injEq] at h
    obtain ⟨h1, -⟩ := h
    subst h1
    exact hpt

theorem responseFromPeer_account (uuid : String) (ns : ConsensusStatusPB)
    (q : PeerMessageQueue) (hq : accountInv q) :
    accountInv (responseFromPeer uuid ns q).1 := by
  cases hw : lookupWm uuid q.watermarks with
  | none => simp only [responseFromPeer, hw]; exact hq
  | some cur =>
    simp only [responseFromPeer, hw]
    split
    · exact hq
    · unfold accountInv at *
      dsimp only
      have h1 := msgBytes_take_drop
        (fun e => decide (opIdLe e.1 ns.receivedWatermark))
        (q.messages.dropWhile (fun e => decide
          (opIdLe e.1 (minOpId cur.replicatedWatermark cur.safeCommitWatermark))))
      have h2 := msgBytes_take_drop
        (fun e => decide
          (opIdLe e.1 (minOpId cur.replicatedWatermark cur.safeCommitWatermark)))
        q.messages
      constructor
      · rw [respFold_queueSize, msgBytes_append, msgBytes_append, respFold_msgBytes]
        omega
      · rw [msgBytes_append, msgBytes_append, respFold_msgBytes]
        omega

theorem step_account (op : QueueOp) {q q' : PeerMessageQueue}
    (h : step op q = some q') (hq : accountInv q) : accountInv q' := by
  cases op with
  | append status =>
    simp only [step, Option.map_eq_some'] at h
    obtain ⟨⟨q1, s⟩, hap, rfl⟩ := h
    exact appendOperation_account status hap hq
  | response uuid ns =>
    simp only [step, Option.some.injEq] at h
    subst h
    exact responseFromPeer_account uuid ns q hq
  | request uuid maxBatch =>
    simp only [step, Option.map_eq_some'] at h
    obtain ⟨ops, -, rfl⟩ := h
    exact hq
  | track uuid wm =>
    simp only [step, Option.map_eq_some'] at h
    obtain ⟨⟨q1, s⟩, htr, rfl⟩ := h
    cases hw : lookupWm uuid q.watermarks
    · simp only [trackPeer, hw, Option.some.injEq, Prod.mk.injEq] at htr
      obtain ⟨h1, -⟩ := htr
      subst h1
      exact hq
    · simp only [trackPeer, hw] at htr
      exact Option.noConfusion htr
  | untrack uuid =>
    simp only [step, Option.some.injEq] at h
    subst h
    exact hq
  | getStatus opId =>
    simp only [step, Option.some.injEq] at h
    subst h
    exact hq

/-- C4: every state reachable from a fresh queue by public operations
satisfies `queue_size_bytes = sum of entry byte sizes in the buffer =
child tracker consumption` (the child tracker carries only this queue's
contribution). -/
theorem runOps_accounting (localSoft localHard globalSoft globalHard : Int)
    (majority : Nat) (parentInit : Int) (ops : List QueueOp) (q : PeerMessageQueue)
    (h : runOps ops
      (initQueue localSoft localHard globalSoft globalHard majority parentInit) =
        some q) :
    accountInv q :=
  runOps_inv_aux accountInv (fun op _ _ hs hq => step_account op hs hq) ops _ q
    (by unfold accountInv initQueue msgBytes; simp) h

/-- Witness for C4: the byte-accounting equation holds after a concrete
run of public operations. -/
theorem runOps_accounting_witness :
    runOps demoOps demoInit = some demoFinal ∧ accountInv demoFinal :=
  ⟨by decide, runOps_accounting 1000000 2000000 3000000 4000000 1 0 demoOps
    demoFinal (by decide)⟩

/- Request-batching lemmas. -/

theorem requestByteSize_append (a b : List OperationPB) :
    requestByteSize (a ++ b) = requestByteSize a + requestByteSize b := by
  simp [requestByteSize]

theorem requestBatch_extends (maxBatch : Nat) :
    ∀ (l : List (OpId × OperationStatusTracker)) (acc : List OperationPB),
      ∃ k, requestBatch maxBatch l acc =
        acc ++ (l.map (fun e => e.2.operation)).take k := by
  intro l
  induction l with
  | nil => intro acc; exact ⟨0, by simp [requestBatch]⟩
  | cons e rest ih =>
    intro acc
    simp only [requestBatch]
    split
    · split
      · exact ⟨0, by rw [List.dropLast_concat]; simp⟩
      · exact ⟨1, by simp⟩
    · obtain ⟨k, hk⟩ := ih (acc ++ [e.2.operation])
      refine ⟨k + 1, ?_⟩
      rw [hk]
      simp [List.append_assoc]

theorem requestBatch_ne_nil (maxBatch : Nat) :
    ∀ (l : List (OpId × OperationStatusTracker)) (acc : List OperationPB),
      (acc ≠ [] ∨ l ≠ []) → requestBatch maxBatch l acc ≠ [] := by
  intro l
  induction l with
  | nil =>
    intro acc h
    simp only [requestBatch]
    rcases h with h | h
    · exact h
    · exact absurd rfl h
  | cons e rest ih =>
    intro acc h
    simp only [requestBatch]
    split
    · split
      · rename_i hlen
        rw [List.dropLast_concat]
        intro hacc
        subst hacc
        simp at hlen
      · simp
    · exact ih (acc ++ [e.2.operation]) (Or.inl (by simp))

theorem requestBatch_size (maxBatch : Nat) :
    ∀ (l : List (OpId × OperationStatusTracker)) (acc : List OperationPB),
      (requestByteSize acc ≤ maxBatch ∨ acc.length ≤ 1) →
      (requestByteSize (requestBatch maxBatch l acc) ≤ maxBatch ∨
       (requestBatch maxBatch l acc).length ≤ 1) := by
  intro l
  induction l with
  | nil => intro acc h; simpa [requestBatch] using h
  | cons e rest ih =>
    intro acc h
    simp only [requestBatch]
    split
    · split
      · rename_i hlen
        rw [List.dropLast_concat]
        exact h
      · rename_i hlen
        right
        omega
    · rename_i hov
      exact ih (acc ++ [e.2.operation]) (Or.inl (not_lt.mp hov))

theorem requestBatch_stop (maxBatch : Nat) :
    ∀ (l : List (OpId × OperationStatusTracker)) (acc : List OperationPB),
      requestBatch maxBatch l acc = acc ++ l.map (fun e => e.2.operation) ∨
      ∃ nxt rest2, acc ++ l.map (fun e => e.2.operation) =
          requestBatch maxBatch l acc ++ nxt :: rest2 ∧
        maxBatch < requestByteSize (requestBatch maxBatch l acc ++ [nxt]) := by
  intro l
  induction l with
  | nil => intro acc; left; simp [requestBatch]
  | cons e rest ih =>
    intro acc
    simp only [requestBatch]
    split
    · rename_i hov
      split
      · rename_i hlen
        right
        refine ⟨e.2.operation, rest.map (fun e => e.2.operation), ?_, ?_⟩
        · rw [List.dropLast_concat]
          simp
        · rw [List.dropLast_concat]
          exact hov
      · rename_i hlen
        cases rest with
        | nil => left; simp
        | cons nx rest' =>
          right
          refine ⟨nx.2.operation, rest'.map (fun e => e.2.operation), by simp, ?_⟩
          rw [requestByteSize_append]
          have hmono : requestByteSize (acc ++ [e.2.operation]) ≤
              requestByteSize (acc ++ [e.2.operation]) +
                requestByteSize [nx.2.operation] := Nat.le_add_right _ _
          omega
    · rename_i hov
      rcases ih (acc ++ [e.2.operation]) with h | ⟨nxt, rest2, hsplit, hsz⟩
      · left
        rw [h]
        simp
      · right
        refine ⟨nxt, rest2, ?_, hsz⟩
        rw [← hsplit]
        simp

/-- C5: `RequestForPeer` on a tracked peer returns the batch built from
`upper_bound(received_watermark)` in buffer order: a prefix of that
tail, non-empty whenever the tail is non-empty, within
`max_batch_size_bytes` whenever it holds more than one op, and stopping
early only when attaching the next op would overflow the limit
(single-op overflow is kept). -/
theorem requestForPeer_batching (uuid : String) (maxBatch : Nat)
    (q : PeerMessageQueue) (cs : ConsensusStatusPB)
    (hopen : q.state = QState.kQueueOpen)
    (hcs : lookupWm uuid q.watermarks = some cs) :
    ∃ ops, requestForPeer uuid maxBatch q = some ops ∧
      (∃ k, ops = ((upperBound cs.receivedWatermark q.messages).map
        (fun e => e.2.operation)).take k) ∧
      (upperBound cs.receivedWatermark q.messages ≠ [] → ops ≠ []) ∧
      (1 < ops.length → requestByteSize ops ≤ maxBatch) ∧
      (ops = (upperBound cs.receivedWatermark q.messages).map
          (fun e => e.2.operation) ∨
        ∃ nxt rest2,
          (upperBound cs.receivedWatermark q.messages).map
              (fun e => e.2.operation) = ops ++ nxt :: rest2 ∧
          maxBatch < requestByteSize (ops ++ [nxt])) := by
  refine ⟨requestBatch maxBatch (upperBound cs.receivedWatermark q.messages) [],
    ?_, ?_, ?_, ?_, ?_⟩
  · simp [requestForPeer, hcs]
  · obtain ⟨k, hk⟩ :=
      requestBatch_extends maxBatch (upperBound cs.receivedWatermark q.messages) []
    exact ⟨k, by simpa using hk⟩
  · intro hne
    exact requestBatch_ne_nil maxBatch _ [] (Or.inr hne)
  · intro hlen
    rcases requestBatch_size maxBatch (upperBound cs.receivedWatermark q.messages) []
      (Or.inl (by simp [requestByteSize])) with h | h
    · exact h
    · omega
  · have h := requestBatch_stop maxBatch (upperBound cs.receivedWatermark q.messages) []
    simpa using h

/-- Witness for C5 at a concrete queue: with two 100-byte ops and a
150-byte cap the batch keeps exactly the first op. -/
theorem requestForPeer_batching_witness :
    c5q.state = QState.kQueueOpen ∧
    lookupWm "a" c5q.watermarks = some csZero ∧
    (∃ ops, requestForPeer "a" 150 c5q = some ops ∧
      (∃ k, ops = ((upperBound csZero.receivedWatermark c5q.messages).map
        (fun e => e.2.operation)).take k) ∧
      (upperBound csZero.receivedWatermark c5q.messages ≠ [] → ops ≠ []) ∧
      (1 < ops.length → requestByteSize ops ≤ 150) ∧
      (ops = (upperBound csZero.receivedWatermark c5q.messages).map
          (fun e => e.2.operation) ∨
        ∃ nxt rest2,
          (upperBound csZero.receivedWatermark c5q.messages).map
              (fun e => e.2.operation) = ops ++ nxt :: rest2 ∧
          150 < requestByteSize (ops ++ [nxt]))) :=
  ⟨rfl, by decide, requestForPeer_batching "a" 150 c5q csZero rfl (by decide)⟩

/- Response idempotence lemmas. -/

theorem lookupWm_updateWm_self (u : String) (v : ConsensusStatusPB) :
    ∀ (l : List (String × ConsensusStatusPB)) (cs : ConsensusStatusPB),
      lookupWm u l = some cs → lookupWm u (updateWm u v l) = some v := by
  intro l
  induction l with
  | nil =>
    intro cs h
    exact absurd h (by simp [lookupWm])
  | cons e rest ih =>
    intro cs h
    by_cases he : e.1 = u
    · simp [updateWm, lookupWm, he]
    · simp only [lookupWm, if_neg he] at h
      simp only [updateWm, if_neg he, lookupWm]
      exact ih cs h

theorem updateWm_updateWm (u : String) (v : ConsensusStatusPB) :
    ∀ l, updateWm u v (updateWm u v l) = updateWm u v l := by
  intro l
  induction l with
  | nil => rfl
  | cons e rest ih =>
    by_cases he : e.1 = u
    · simp [updateWm, he]
    · simp [updateWm, he, ih]

theorem respFold_keys (uuid : String) (cur new : ConsensusStatusPB)
    (peers : List String) (majority : Nat) :
    ∀ (l : List (OpId × OperationStatusTracker)) (m : Metrics),
      (respFold uuid cur new peers majority l m).1.map Prod.fst = l.map Prod.fst := by
  intro l
  induction l with
  | nil => intro m; rfl
  | cons e rest ih =>
    intro m
    simp only [respFold, List.map_cons]
    rw [respEntry_key, ih]

theorem dropWhile_keyPred_length (k : OpId) :
    ∀ (l l' : List (OpId × OperationStatusTracker)),
      l.map Prod.fst = l'.map Prod.fst →
      (l.dropWhile (fun e => decide (opIdLe e.1 k))).length =
      (l'.dropWhile (fun e => decide (opIdLe e.1 k))).length := by
  intro l
  induction l with
  | nil =>
    intro l' h
    cases l' with
    | nil => rfl
    | cons y ys => simp at h
  | cons x xs ih =>
    intro l' h
    cases l' with
    | nil => simp at h
    | cons y ys =>
      simp only [List.map_cons, List.cons.injEq] at h
      obtain ⟨h1, h2⟩ := h
      rw [List.dropWhile_cons, List.dropWhile_cons, h1]
      split
      · exact ih ys h2
      · simp only [List.length_cons]
        have hl := congrArg List.length h2
        simpa using hl

theorem isEmpty_eq_of_length_eq {α β : Type} {l1 : List α} {l2 : List β}
    (h : l1.length = l2.length) : l1.isEmpty = l2.isEmpty := by
  cases l1 <;> cases l2 <;> simp_all

theorem ackCond_self_false (new : ConsensusStatusPB)
    (e : OpId × OperationStatusTracker) : ¬ AckCond new new e := by
  intro h
  rcases h with ⟨-, h1, h2⟩ | ⟨-, h1, h2⟩ <;> exact opIdLt_le_asymm h1 h2

theorem respEntry_self (uuid : String) (new : ConsensusStatusPB) (peers : List String)
    (majority : Nat) (e : OpId × OperationStatusTracker) (m : Metrics) :
    respEntry uuid new new peers majority e m = (e, m) := by
  simp only [respEntry]
  rw [if_neg (ackCond_self_false new e)]
  simp

theorem respFold_self (uuid : String) (new : ConsensusStatusPB) (peers : List String)
    (majority : Nat) :
    ∀ (l : List (OpId × OperationStatusTracker)) (m : Metrics),
      respFold uuid new new peers majority l m = (l, m) := by
  intro l
  induction l with
  | nil => intro m; rfl
  | cons e rest ih =>
    intro m
    simp [respFold, respEntry_self, ih]

/-- Closed form of `ResponseFromPeer` on a tracked peer of an open queue. -/
theorem responseFromPeer_eq (uuid : String) (new : ConsensusStatusPB)
    (q : PeerMessageQueue) (cur : ConsensusStatusPB)
    (hcs : lookupWm uuid q.watermarks = some cur)
    (hopen : q.state = QState.kQueueOpen) :
    responseFromPeer uuid new q =
      ({ q with
          messages :=
            q.messages.takeWhile (fun e => decide (opIdLe e.1
              (minOpId cur.replicatedWatermark cur.safeCommitWatermark))) ++
            (respFold uuid cur new (trackedPeers q) q.majoritySize
              ((q.messages.dropWhile (fun e => decide (opIdLe e.1
                (minOpId cur.replicatedWatermark cur.safeCommitWatermark)))).takeWhile
                (fun e => decide (opIdLe e.1 new.receivedWatermark)))
              q.metrics).1 ++
            (q.messages.dropWhile (fun e => decide (opIdLe e.1
              (minOpId cur.replicatedWatermark cur.safeCommitWatermark)))).dropWhile
              (fun e => decide (opIdLe e.1 new.receivedWatermark)),
          metrics := (respFold uuid cur new (trackedPeers q) q.majoritySize
            ((q.messages.dropWhile (fun e => decide (opIdLe e.1
              (minOpId cur.replicatedWatermark cur.safeCommitWatermark)))).takeWhile
              (fun e => decide (opIdLe e.1 new.receivedWatermark)))
            q.metrics).2,
          watermarks := updateWm uuid new q.watermarks },
        !(upperBound new.receivedWatermark q.messages).isEmpty) := by
  simp only [responseFromPeer, hcs]
  rw [if_neg (by rw [hopen]; exact fun hcl => QState.noConfusion hcl)]

/-- C9: applying the same `ResponseFromPeer` twice is idempotent: the
second call leaves the entire queue state (gauge buckets, watermark
record, message trackers) unchanged and returns the same `more_pending`
value. -/
theorem responseFromPeer_idempotent (uuid : String) (new : ConsensusStatusPB)
    (q : PeerMessageQueue) (cs : ConsensusStatusPB)
    (hopen : q.state = QState.kQueueOpen)
    (hcs : lookupWm uuid q.watermarks = some cs) :
    responseFromPeer uuid new (responseFromPeer uuid new q).1 =
      responseFromPeer uuid new q := by
  obtain ⟨q1, mp1, hr⟩ : ∃ q1 mp1, responseFromPeer uuid new q = (q1, mp1) :=
    ⟨_, _, rfl⟩
  have hr' := hr
  rw [responseFromPeer_eq uuid new q cs hcs hopen, Prod.mk.injEq] at hr'
  obtain ⟨hq1, hmp1⟩ := hr'
  have hw1 : q1.watermarks = updateWm uuid new q.watermarks := by
    rw [← hq1]
  have hst1 : q1.state = QState.kQueueOpen := by
    rw [← hq1]
    exact hopen
  have hkeys1 : q1.messages.map Prod.fst = q.messages.map Prod.fst := by
    rw [← hq1]
    dsimp only
    rw [List.map_append, List.map_append, respFold_keys, ← List.map_append,
      ← List.map_append, List.append_assoc, List.takeWhile_append_dropWhile,
      List.takeWhile_append_dropWhile]
  have hcs1 : lookupWm uuid q1.watermarks = some new := by
    rw [hw1]
    exact lookupWm_updateWm_self uuid new q.watermarks cs hcs
  rw [hr]
  show responseFromPeer uuid new q1 = (q1, mp1)
  rw [responseFromPeer_eq uuid new q1 new hcs1 hst1, Prod.mk.injEq]
  constructor
  · rw [respFold_self]
    dsimp only
    rw [List.append_assoc, List.takeWhile_append_dropWhile,
      List.takeWhile_append_dropWhile, hw1, updateWm_updateWm, ← hw1]
  · rw [← hmp1]
    have hlen := dropWhile_keyPred_length new.receivedWatermark q1.messages
      q.messages hkeys1
    unfold upperBound
    rw [isEmpty_eq_of_length_eq hlen]

/-- Witness for C9 at a concrete queue with two buffered ops. -/
theorem responseFromPeer_idempotent_witness :
    c5q.state = QState.kQueueOpen ∧
    lookupWm "a" c5q.watermarks = some csZero ∧
    responseFromPeer "a" demoCs (responseFromPeer "a" demoCs c5q).1 =
      responseFromPeer "a" demoCs c5q :=
  ⟨rfl, by decide, responseFromPeer_idempotent "a" demoCs c5q csZero rfl (by decide)⟩

/- Ack-exactness lemmas. -/

theorem opIdLt_trans {a b c : OpId} (h1 : opIdLt a b) (h2 : opIdLt b c) : opIdLt a c := by
  rw [opIdLt_iff] at *
  omega

theorem map_id_of_mem {α : Type} {f : α → α} :
    ∀ {l : List α}, (∀ e ∈ l, f e = e) → l.map f = l := by
  intro l
  induction l with
  | nil => intro _; rfl
  | cons x xs ih =>
    intro h
    simp only [List.map_cons]
    rw [h x (by simp), ih (fun e he => h e (by simp [he]))]

theorem mem_dropWhile_gt (k : OpId) :
    ∀ (l : List (OpId × OperationStatusTracker)),
      l.Pairwise (fun a b => opIdLt a.1 b.1) →
      ∀ e ∈ l.dropWhile (fun x => decide (opIdLe x.1 k)), opIdLt k e.1 := by
  intro l
  induction l with
  | nil =>
    intro _ e he
    simp at he
  | cons x xs ih =>
    intro hp e he
    rw [List.dropWhile_cons] at he
    split at he
    · exact ih (List.Pairwise.of_cons hp) e he
    · rename_i hx
      have hk : opIdLt k x.1 :=
        opIdLt_of_not_le (by simpa using hx)
      rcases List.mem_cons.mp he with rfl | hmem
      · exact hk
      · exact opIdLt_trans hk ((List.pairwise_cons.mp hp).1 e hmem)

theorem respEntry_entry (uuid : String) (cur new : ConsensusStatusPB)
    (peers : List String) (majority : Nat) (e : OpId × OperationStatusTracker)
    (m : Metrics) :
    (respEntry uuid cur new peers majority e m).1 =
      if AckCond cur new e then (e.1, e.2.ackPeer uuid) else e := by
  by_cases hc : AckCond cur new e
  · simp only [respEntry, if_pos hc]
  · simp only [respEntry, if_neg hc]

theorem respFold_list (uuid : String) (cur new : ConsensusStatusPB)
    (peers : List String) (majority : Nat) :
    ∀ (l : List (OpId × OperationStatusTracker)) (m : Metrics),
      (respFold uuid cur new peers majority l m).1 =
        l.map (fun e => if AckCond cur new e then (e.1, e.2.ackPeer uuid) else e) := by
  intro l
  induction l with
  | nil => intro m; rfl
  | cons e rest ih =>
    intro m
    simp only [respFold, List.map_cons]
    rw [respEntry_entry, ih]

/-- C6: `ResponseFromPeer` on a tracked peer of an open queue (with a
well-formed buffer and a received watermark dominating the other two
incoming watermarks) acks exactly the entries admitted by the
watermark windows — COMMITs with `current.safe_commit < id ≤
new.safe_commit`, REPLICATEs with `current.replicated < id ≤
new.replicated` — overwrites the peer's watermark record with the new
status, and reports `more_pending` iff entries beyond `new.received`
remain. -/
theorem responseFromPeer_ack_exactness (uuid : String) (new : ConsensusStatusPB)
    (q : PeerMessageQueue) (cur : ConsensusStatusPB)
    (hopen : q.state = QState.kQueueOpen)
    (hcs : lookupWm uuid q.watermarks = some cur)
    (hsorted : q.messages.Pairwise (fun a b => opIdLt a.1 b.1))
    (hkeys : ∀ e ∈ q.messages, e.1 = e.2.operation.id)
    (hrr : opIdLe new.replicatedWatermark new.receivedWatermark)
    (hrs : opIdLe new.safeCommitWatermark new.receivedWatermark) :
    (responseFromPeer uuid new q).1.messages =
      q.messages.map
        (fun e => if AckCond cur new e then (e.1, e.2.ackPeer uuid) else e) ∧
    lookupWm uuid (responseFromPeer uuid new q).1.watermarks = some new ∧
    (responseFromPeer uuid new q).2 =
      !(upperBound new.receivedWatermark q.messages).isEmpty := by
  rw [responseFromPeer_eq uuid new q cur hcs hopen]
  refine ⟨?_, ?_, rfl⟩
  · dsimp only
    rw [respFold_list]
    have hpre : ∀ e ∈ q.messages.takeWhile (fun e => decide (opIdLe e.1
        (minOpId cur.replicatedWatermark cur.safeCommitWatermark))),
        (if AckCond cur new e then (e.1, e.2.ackPeer uuid) else e) = e := by
      intro e he
      have hp := List.mem_takeWhile_imp he
      have hle : opIdLe e.1
          (minOpId cur.replicatedWatermark cur.safeCommitWatermark) :=
        of_decide_eq_true hp
      have hmem : e ∈ q.messages := (List.takeWhile_sublist _).subset he
      have hid : e.1 = e.2.operation.id := hkeys e hmem
      rw [if_neg]
      intro hc
      rcases hc with ⟨-, h1, -⟩ | ⟨-, h1, -⟩
      · rw [← hid] at h1
        exact opIdLt_le_asymm h1 (opIdLe_trans hle (minOpId_le_right _ _))
      · rw [← hid] at h1
        exact opIdLt_le_asymm h1 (opIdLe_trans hle (minOpId_le_left _ _))
    have hpost : ∀ e ∈ (q.messages.dropWhile (fun e => decide (opIdLe e.1
        (minOpId cur.replicatedWatermark cur.safeCommitWatermark)))).dropWhile
          (fun e => decide (opIdLe e.1 new.receivedWatermark)),
        (if AckCond cur new e then (e.1, e.2.ackPeer uuid) else e) = e := by
      intro e he
      have hsr : (q.messages.dropWhile (fun e => decide (opIdLe e.1
          (minOpId cur.replicatedWatermark cur.safeCommitWatermark)))).Pairwise
            (fun a b => opIdLt a.1 b.1) :=
        List.Pairwise.sublist (List.dropWhile_sublist _) hsorted
      have hgt : opIdLt new.receivedWatermark e.1 :=
        mem_dropWhile_gt new.receivedWatermark _ hsr e he
      have hmem : e ∈ q.messages :=
        (List.dropWhile_sublist _).subset ((List.dropWhile_sublist _).subset he)
      have hid : e.1 = e.2.operation.id := hkeys e hmem
      rw [if_neg]
      intro hc
      rcases hc with ⟨-, -, h2⟩ | ⟨-, -, h2⟩
      · rw [← hid] at h2
        exact opIdLt_le_asymm hgt (opIdLe_trans h2 hrs)
      · rw [← hid] at h2
        exact opIdLt_le_asymm hgt (opIdLe_trans h2 hrr)
    conv_rhs =>
      rw [← List.takeWhile_append_dropWhile
        (p := fun e => decide (opIdLe e.1
          (minOpId cur.replicatedWatermark cur.safeCommitWatermark)))
        (l := q.messages)]
      rw [← List.takeWhile_append_dropWhile
        (p := fun e => decide (opIdLe e.1 new.receivedWatermark))
        (l := q.messages.dropWhile (fun e => decide (opIdLe e.1
          (minOpId cur.replicatedWatermark cur.safeCommitWatermark))))]
      rw [List.map_append, List.map_append]
    rw [map_id_of_mem hpre, map_id_of_mem hpost, List.append_assoc]
  · dsimp only
    exact lookupWm_updateWm_self uuid new q.watermarks cur hcs

/-- Witness for C6 at a concrete two-entry queue: the ack window covers
both REPLICATE entries. -/
theorem responseFromPeer_ack_exactness_witness :
    c5q.state = QState.kQueueOpen ∧
    lookupWm "a" c5q.watermarks = some csZero ∧
    c5q.messages.Pairwise (fun a b => opIdLt a.1 b.1) ∧
    (∀ e ∈ c5q.messages, e.1 = e.2.operation.id) ∧
    opIdLe demoCs.replicatedWatermark demoCs.receivedWatermark ∧
    opIdLe demoCs.safeCommitWatermark demoCs.receivedWatermark ∧
    ((responseFromPeer "a" demoCs c5q).1.messages =
      c5q.messages.map
        (fun e => if AckCond csZero demoCs e then (e.1, e.2.ackPeer "a") else e) ∧
    lookupWm "a" (responseFromPeer "a" demoCs c5q).1.watermarks = some demoCs ∧
    (responseFromPeer "a" demoCs c5q).2 =
      !(upperBound demoCs.receivedWatermark c5q.messages).isEmpty) :=
  ⟨rfl, by decide, by decide, by decide, by decide, by decide,
    responseFromPeer_ack_exactness "a" demoCs c5q csZero rfl (by decide) (by decide)
      (by decide) (by decide) (by decide)⟩

end KuduQueue
